import Mathlib

/-!
Verification of the myprofiler query profiler (src/main.rs).

The development shallowly embeds the two core components of the program:

* the normalizer `normalize_query` (main.rs lines 16-27 and 188-194), a
  fixed ordered cascade of eight regex rewrites, each hand-compiled here
  into an executable scanner over `List Char` with the leftmost,
  non-overlapping, greedy matching semantics of Rust's `regex` crate
  (character classes are modelled at their ASCII meaning, which agrees
  with the Unicode-aware Rust classes on all ASCII inputs);
* the two summarizers `Summarizer` (main.rs 49-67) and `RecentSummarizer`
  (main.rs 74-117) together with the shared printing routine
  `show_summary` (main.rs 35-47).  The Rust `HashMap<String, i64>` is
  modelled as an insertion-ordered association list; the order of the
  list stands for the (unspecified, run-dependent) iteration order of the
  hash map.  Machine integers `i64` become `Int` (counts stay far below
  2^63 in every statement proved here, so no wrap-around is modelled) and
  `u32` sizes become `Nat`.  Code paths that panic in Rust
  (`Vec::remove(0)` on an empty vector, `.last_mut().expect(..)` on an
  empty vector) are modelled with `Option`, `none` standing for a panic.
-/

namespace Myprofiler

/-! ### Normalizer -/

/-- ASCII word character, the `\w`/`\b` class of the regex crate restricted
to ASCII: letters, digits and underscore. -/
def isWordChar (c : Char) : Bool := c.isAlphanum || c = '_'

/-- ASCII whitespace as matched by `\s`: space, tab, newline, carriage
return, vertical tab, form feed. -/
def isWS (c : Char) : Bool :=
  c = ' ' || c = '\t' || c = '\n' || c = '\r' || c = '\x0b' || c = '\x0c'

/-- Whether the next character (if any) is a word character; used for the
trailing `\b` tests. -/
def nextIsWord : List Char → Bool
  | [] => false
  | c :: _ => isWordChar c

/-- Hexadecimal digit, the class `[0-9A-Fa-f]`. -/
def isHexDigit (c : Char) : Bool :=
  c.isDigit || ('a' ≤ c && c ≤ 'f') || ('A' ≤ c && c ≤ 'F')

/-- Pattern 1, `" +" -> " "`: collapse every run of spaces to one space.
The Boolean argument records whether the previous character was a space
(i.e. whether we are inside an already-opened run). -/
def rule1Go : Bool → List Char → List Char
  | _, [] => []
  | prevSpace, c :: rest =>
    if c = ' ' then
      (if prevSpace then [] else [' ']) ++ rule1Go true rest
    else c :: rule1Go false rest

def rule1 (l : List Char) : List Char := rule1Go false l

/-- Pattern 2, `[+-]{0,1}\b\d+\b -> "N"`.  The scanner walks the string
left to right carrying the word-ness of the previous character (for the
leading `\b`).  At a sign the optional sign branch is tried (the `\b`
between a sign and a digit always holds); at a digit preceded by a
non-word character the unsigned branch is tried.  A candidate match is a
maximal digit run and succeeds iff the following character is not a word
character (the trailing `\b`); backtracking inside the digit run can
never succeed, exactly as for the real regex.  `fuel` only bounds the
recursion and is initialised to the length of the input, which every
step decreases by at least one. -/
def rule2Go : Nat → Bool → List Char → List Char
  | 0, _, l => l
  | _ + 1, _, [] => []
  | fuel + 1, prevW, c :: rest =>
    if c = '+' || c = '-' then
      let ds := rest.takeWhile Char.isDigit
      let rest' := rest.dropWhile Char.isDigit
      if !ds.isEmpty && !nextIsWord rest' then
        'N' :: rule2Go fuel true rest'
      else
        c :: rule2Go fuel (isWordChar c) rest
    else if c.isDigit && !prevW then
      let rest' := (c :: rest).dropWhile Char.isDigit
      if !nextIsWord rest' then
        'N' :: rule2Go fuel true rest'
      else
        c :: rule2Go fuel (isWordChar c) rest
    else
      c :: rule2Go fuel (isWordChar c) rest

def rule2 (l : List Char) : List Char := rule2Go l.length false l

/-- Pattern 3, `\b0x[0-9A-Fa-f]+\b -> "0xN"`.  A match needs a `0`
preceded by a non-word position, a literal `x`, a nonempty maximal hex
run, and a non-word (or end) position after it. -/
def rule3Go : Nat → Bool → List Char → List Char
  | 0, _, l => l
  | _ + 1, _, [] => []
  | fuel + 1, prevW, c :: rest =>
    if c = '0' && !prevW then
      match rest with
      | 'x' :: rest2 =>
        let hs := rest2.takeWhile isHexDigit
        let rest' := rest2.dropWhile isHexDigit
        if !hs.isEmpty && !nextIsWord rest' then
          '0' :: 'x' :: 'N' :: rule3Go fuel true rest'
        else
          c :: rule3Go fuel true rest
      | _ => c :: rule3Go fuel true rest
    else
      c :: rule3Go fuel (isWordChar c) rest

def rule3 (l : List Char) : List Char := rule3Go l.length false l

/-- Pattern 4, `(\\') -> ""`: delete every backslash-singlequote pair. -/
def rule4 : List Char → List Char
  | '\\' :: '\'' :: rest => rule4 rest
  | c :: rest => c :: rule4 rest
  | [] => []

/-- Pattern 5, `(\\") -> ""`: delete every backslash-doublequote pair. -/
def rule5 : List Char → List Char
  | '\\' :: '"' :: rest => rule5 rest
  | c :: rest => c :: rule5 rest
  | [] => []

/-- Patterns 6 and 7, `'[^']+' -> "S"` and `"[^"]+" -> "S"`, sharing the
quote character `q`.  At an opening quote the (necessarily maximal) run
of non-quote characters is taken; the match succeeds iff the run is
nonempty and a closing quote follows. -/
def quoteGo (q : Char) : Nat → List Char → List Char
  | 0, l => l
  | _ + 1, [] => []
  | fuel + 1, c :: rest =>
    if c = q then
      let body := rest.takeWhile (· ≠ q)
      match rest.dropWhile (· ≠ q) with
      | _ :: rest2 =>
        if body.isEmpty then c :: quoteGo q fuel rest
        else 'S' :: quoteGo q fuel rest2
      | [] => c :: quoteGo q fuel rest
    else c :: quoteGo q fuel rest

def rule6 (l : List Char) : List Char := quoteGo '\'' l.length l

def rule7 (l : List Char) : List Char := quoteGo '"' l.length l

/-- One repetition of the unit `[NS]\s*,\s*` of pattern 8: a placeholder
character, optional whitespace, a comma, optional whitespace.  Inside the
unit there is no real nondeterminism: the `\s*` runs are maximal and
cannot be shrunk into a successful match. -/
def repOnce : List Char → Option (List Char)
  | c :: rest =>
    if c = 'N' || c = 'S' then
      match rest.dropWhile isWS with
      | ',' :: rest2 => some (rest2.dropWhile isWS)
      | _ => none
    else none
  | [] => none

/-- Greedily count repetitions of the unit, returning the count and the
rest of the input.  Each successful unit consumes at least two
characters, so `fuel` at least the length of the list suffices. -/
def repsFrom : Nat → List Char → Nat × List Char
  | 0, l => (0, l)
  | fuel + 1, l =>
    match repOnce l with
    | none => (0, l)
    | some l' =>
      let r := repsFrom fuel l'
      (r.1 + 1, r.2)

/-- Pattern 8, `(([NS]\s*,\s*){4,}) -> "..."`: at each position, if four
or more repetitions match, the whole (greedy) run is replaced by `...`
and scanning resumes after it. -/
def rule8Go : Nat → List Char → List Char
  | 0, l => l
  | _ + 1, [] => []
  | fuel + 1, c :: rest =>
    let pr := repsFrom (fuel + 1) (c :: rest)
    if 4 ≤ pr.1 then '.' :: '.' :: '.' :: rule8Go fuel pr.2
    else c :: rule8Go fuel rest

def rule8 (l : List Char) : List Char := rule8Go l.length l

/-- The ordered rewrite cascade, main.rs 16-27. -/
def NORMALIZE_PATTERNS : List (List Char → List Char) :=
  [rule1, rule2, rule3, rule4, rule5, rule6, rule7, rule8]

/-- `normalize_query`, main.rs 188-194: apply every pattern in order,
each pattern's output feeding the next. -/
def normalize_query (text : String) : String :=
  String.mk (NORMALIZE_PATTERNS.foldl (fun t p => p t) text.toList)

/-! ### The collapse threshold of pattern 8

`placeholderRun p k` is the text of a comma-separated list of `k` copies
of the placeholder `p`, e.g. `placeholderRun 'N' 3 = "N, N, N"`, which is
what patterns 1-7 produce from a literal list of `k` values. -/

def placeholderRun (p : Char) : Nat → List Char
  | 0 => []
  | 1 => [p]
  | n + 2 => p :: ',' :: ' ' :: placeholderRun p (n + 1)

/-! ### Summarizers

The Rust `HashMap<String, i64>` is modelled as an association list in
insertion order; the list order stands for the hash map's iteration
order, which the Rust standard library leaves unspecified and randomizes
per process. -/

/-- `*map.entry(q).or_insert(0) += n`: add `n` to the entry of `q`,
inserting it (at the end, i.e. as a fresh entry) if absent. -/
def hashAdd (m : List (String × Int)) (q : String) (n : Int) : List (String × Int) :=
  if m.any (fun p => p.1 = q) then
    m.map (fun p => if p.1 = q then (p.1, p.2 + n) else p)
  else m ++ [(q, n)]

/-- The value stored for key `q` (0 if absent), i.e. what the `i64`
count of a shape reads as. -/
def tableCount : List (String × Int) → String → Int
  | [], _ => 0
  | p :: rest, q => if p.1 = q then p.2 else tableCount rest q

/-- The sum of the values of all entries with key `q`; coincides with
`tableCount` when keys are unique. -/
def entrySum : List (String × Int) → String → Int
  | [], _ => 0
  | p :: rest, q => (if p.1 = q then p.2 else 0) + entrySum rest q

/-- The all-time `Summarizer`, main.rs 49-67. -/
structure Summarizer where
  counts : List (String × Int)
deriving DecidableEq

def Summarizer.new (_ : Nat) : Summarizer := ⟨[]⟩

/-- `Summarizer::update`, main.rs 61-66: every occurrence of every query
in the input adds 1 to that query's entry. -/
def Summarizer.update (s : Summarizer) (queries : List String) : Summarizer :=
  ⟨queries.foldl (fun m q => hashAdd m q 1) s.counts⟩

/-- A sequence of `update` calls against the all-time summarizer. -/
def runAllTime (inputs : List (List String)) : Summarizer :=
  inputs.foldl Summarizer.update (Summarizer.new 0)

/-- The comparator `|a, b| b.1.cmp(a.1)` of main.rs 37 as a relation:
`a` may come before `b` iff `b`'s count is at most `a`'s. -/
def countGe (a b : String × Int) : Prop := b.2 ≤ a.2

instance : DecidableRel countGe := fun a b => inferInstanceAs (Decidable (b.2 ≤ a.2))

instance : IsTotal (String × Int) countGe := ⟨fun a b => le_total b.2 a.2⟩

instance : IsTrans (String × Int) countGe := ⟨fun _ _ _ hab hbc => le_trans hbc hab⟩

/-- Descending order on counts, the order in which `show_summary` emits
the count column. -/
def intGe (x y : Int) : Prop := y ≤ x

instance : IsAntisymm Int intGe := ⟨fun _ _ h1 h2 => le_antisymm h2 h1⟩

/-- The print loop of `show_summary`, main.rs 39-46: print an entry,
increment `cnt`, stop as soon as `cnt >= n_query`.  Returns the list of
printed entries. -/
def printLoopGo : Nat → Nat → List (String × Int) → List (String × Int)
  | _, _, [] => []
  | cnt, n, e :: rest =>
    e :: (if cnt + 1 ≥ n then [] else printLoopGo (cnt + 1) n rest)

/-- `show_summary`, main.rs 35-47.  The input list is the iteration
order of the hash map; `sort_by(|a, b| b.1.cmp(a.1))` is Rust's stable
sort by count descending, which `List.insertionSort countGe` computes:
both produce the unique permutation that is sorted by `countGe` and
keeps equal-count entries in input order. -/
def show_summary (summ : List (String × Int)) (n_query : Nat) : List (String × Int) :=
  printLoopGo 0 n_query (summ.insertionSort countGe)

/-- One per-tick entry of the recent window: `QueryCount { q, n }`,
main.rs 70-73, as a `(q, n)` pair. -/
structure RecentSummarizer where
  counts : List (List (String × Int))
  limit : Nat
deriving DecidableEq

/-- `Vec::remove(0)`: panics (`none`) on an empty vector. -/
def vecRemoveFirst : List α → Option (List α)
  | [] => none
  | _ :: t => some t

/-- `qc.last_mut() += 1` on the grouping accumulator. -/
def bumpLast : List (String × Int) → List (String × Int)
  | [] => []
  | [p] => [(p.1, p.2 + 1)]
  | p :: q :: rest => p :: bumpLast (q :: rest)

/-- The grouping loop of `RecentSummarizer::update`, main.rs 106-114,
over the sorted queries: a query different from `last_query` pushes a
fresh `(q, 0)` entry, then the last entry is incremented via
`last_mut().expect(..)`, which panics (`none`) when the accumulator is
still empty (reachable only when the first query equals the initial
`last_query`, the empty string). -/
def buildQCGo : String → List (String × Int) → List String → Option (List (String × Int))
  | _, acc, [] => some acc
  | last, acc, q :: rest =>
    let acc' := if q = last then acc else acc ++ [(q, 0)]
    let last' := if q = last then last else q
    if acc'.isEmpty then none
    else buildQCGo last' (bumpLast acc') rest

def buildQC (l : List String) : Option (List (String × Int)) :=
  buildQCGo "" [] l

def RecentSummarizer.new (limit : Nat) : RecentSummarizer := ⟨[], limit⟩

/-- `RecentSummarizer::update`, main.rs 98-116: evict the oldest tick
when the window is full (a `Vec::remove(0)` that panics when `limit = 0`
and the window is empty), sort the queries, coalesce them into one
per-tick entry, and append that entry. -/
def RecentSummarizer.update (s : RecentSummarizer) (queries : List String) :
    Option RecentSummarizer :=
  match (if s.limit ≤ s.counts.length then vecRemoveFirst s.counts else some s.counts) with
  | none => none
  | some counts1 =>
    match buildQC (queries.insertionSort (· ≤ ·)) with
    | none => none
    | some qc => some ⟨counts1 ++ [qc], s.limit⟩

/-- A sequence of `update` calls against the recent summarizer; a panic
aborts the run. -/
def runRecent (s : RecentSummarizer) : List (List String) → Option RecentSummarizer
  | [] => some s
  | qs :: rest =>
    match s.update qs with
    | none => none
    | some s' => runRecent s' rest

/-- The aggregation loop of `RecentSummarizer::show`, main.rs 86-95: sum
every per-tick entry of the window into one table. -/
def windowAggregate (w : List (List (String × Int))) : List (String × Int) :=
  w.foldl (fun m qcs => qcs.foldl (fun m qc => hashAdd m qc.1 qc.2) m) []

/-- The strategy selection of `main`, main.rs 302-308: `last == 0` uses
the all-time `Summarizer`, anything else a `RecentSummarizer`. -/
inductive SummarizerChoice
  | allTime : SummarizerChoice
  | recent : Nat → SummarizerChoice
deriving DecidableEq

def selectSummarizer (last : Nat) : SummarizerChoice :=
  if last = 0 then .allTime else .recent last

/-- Reference grouping of a list of strings into `(value, multiplicity)`
pairs of adjacent runs; `buildQCGo` computes this whenever it does not
panic. -/
def groupCounts : List String → List (String × Int)
  | [] => []
  | q :: rest =>
    (q, 1 + ((rest.takeWhile (fun x => x = q)).length : Int)) ::
      groupCounts (rest.dropWhile (fun x => x = q))
termination_by l => l.length
decreasing_by
  simp only [List.length_cons]
  exact Nat.lt_succ_of_le (List.dropWhile_sublist _).length_le

theorem placeholderRun_cons (p : Char) (n : Nat) :
    ∃ t, placeholderRun p (n + 1) = p :: t := by
  cases n with
  | zero => exact ⟨[], rfl⟩
  | succ m => exact ⟨',' :: ' ' :: placeholderRun p (m + 1), rfl⟩

theorem length_placeholderRun (p : Char) :
    ∀ n, (placeholderRun p (n + 1)).length = 3 * n + 1 := by
  intro n
  induction n with
  | zero => rfl
  | succ m ih => simp [placeholderRun, ih]; ring

theorem repOnce_placeholderRun {p : Char} (hp : p = 'N' ∨ p = 'S') (n : Nat) :
    repOnce (placeholderRun p (n + 2)) = some (placeholderRun p (n + 1)) := by
  obtain ⟨t, ht⟩ := placeholderRun_cons p n
  rcases hp with rfl | rfl <;>
    simp [placeholderRun, repOnce, isWS, ht]

theorem repOnce_single {p : Char} (hp : p = 'N' ∨ p = 'S') :
    repOnce [p] = none := by
  rcases hp with rfl | rfl <;> simp [repOnce]

theorem repsFrom_placeholderRun {p : Char} (hp : p = 'N' ∨ p = 'S') :
    ∀ n fuel, n ≤ fuel → repsFrom fuel (placeholderRun p (n + 1)) = (n, [p]) := by
  intro n
  induction n with
  | zero =>
    intro fuel _
    cases fuel with
    | zero => rfl
    | succ f => simp [repsFrom, repOnce_single hp, placeholderRun]
  | succ m ih =>
    intro fuel hf
    cases fuel with
    | zero => omega
    | succ f =>
      have h1 : repOnce (placeholderRun p (m + 2)) = some (placeholderRun p (m + 1)) :=
        repOnce_placeholderRun hp m
      have h2 : repsFrom f (placeholderRun p (m + 1)) = (m, [p]) := ih f (by omega)
      simp [repsFrom, h1, h2]

theorem rule8Go_single {p : Char} (hp : p = 'N' ∨ p = 'S') (fuel : Nat) :
    rule8Go fuel [p] = [p] := by
  cases fuel with
  | zero => rfl
  | succ f =>
    have h0 : repsFrom (f + 1) [p] = (0, [p]) := by
      simp [repsFrom, repOnce_single hp]
    cases f <;> simp [rule8Go, h0]

theorem rule8_placeholderRun_collapse {p : Char} (hp : p = 'N' ∨ p = 'S')
    {n : Nat} (hn : 4 ≤ n) :
    rule8 (placeholderRun p (n + 1)) = ['.', '.', '.', p] := by
  obtain ⟨t, ht⟩ := placeholderRun_cons p n
  have hlen : (placeholderRun p (n + 1)).length = 3 * n + 1 := length_placeholderRun p n
  have hreps : repsFrom (3 * n + 1) (placeholderRun p (n + 1)) = (n, [p]) :=
    repsFrom_placeholderRun hp n (3 * n + 1) (by omega)
  unfold rule8
  rw [hlen]
  rw [ht] at hreps ⊢
  simp only [rule8Go, hreps]
  rw [if_pos hn]
  simp [rule8Go_single hp]

/-- Claim C1: `normalize_query` maps each of the five inputs of the
repository's `test_normalize` (main.rs 319-325) to the listed output. -/
theorem normalize_query_examples :
    normalize_query "IN ('a', 'b', 'c')" = "IN (S, S, S)" ∧
    normalize_query "IN ('a', 'b', 'c', 'd', 'e')" = "IN (...S)" ∧
    normalize_query "IN (1, 2, 3)" = "IN (N, N, N)" ∧
    normalize_query "IN (0x1, 2, 3)" = "IN (0xN, N, N)" ∧
    normalize_query "IN (1, 2, 3, 4, 5)" = "IN (...N)" := by
  refine ⟨?_, ?_, ?_, ?_, ?_⟩ <;> decide

/-- Claim C2: in the final rewrite rule of `normalize_query` (pattern 8),
a comma-separated list of exactly 3 placeholder values is left expanded,
as is a list of exactly 4 values (the trigger is a run of 4 or more
`placeholder, ` repetitions, not a raw count of values), while a list of
5 or more values collapses to `...` followed by the placeholder kind. -/
theorem normalize_collapse_threshold :
    rule8 (placeholderRun 'N' 3) = placeholderRun 'N' 3 ∧
    rule8 (placeholderRun 'S' 3) = placeholderRun 'S' 3 ∧
    rule8 (placeholderRun 'N' 4) = placeholderRun 'N' 4 ∧
    rule8 (placeholderRun 'S' 4) = placeholderRun 'S' 4 ∧
    normalize_query "IN (1, 2, 3, 4)" = "IN (N, N, N, N)" ∧
    (∀ p, (p = 'N' ∨ p = 'S') → ∀ k, 5 ≤ k →
      rule8 (placeholderRun p k) = ['.', '.', '.', p]) := by
  refine ⟨by decide, by decide, by decide, by decide, by decide, ?_⟩
  intro p hp k hk
  obtain ⟨n, rfl⟩ : ∃ n, k = n + 1 := ⟨k - 1, by omega⟩
  exact rule8_placeholderRun_collapse hp (by omega)

/-- Witness for C2: the hypotheses of the universally quantified part are
satisfiable, at the placeholder `N` and a list of 5 values. -/
theorem normalize_collapse_threshold_witness :
    (('N' = 'N' ∨ 'N' = 'S') ∧ 5 ≤ 5) ∧
    rule8 (placeholderRun 'N' 5) = ['.', '.', '.', 'N'] :=
  ⟨⟨Or.inl rfl, by decide⟩,
    normalize_collapse_threshold.2.2.2.2.2 'N' (Or.inl rfl) 5 (by decide)⟩

/-! ### Hash-table model lemmas -/

theorem tableCount_map_bump_ne {q s : String} (hne : s ≠ q) (n : Int) :
    ∀ m : List (String × Int),
      tableCount (m.map (fun p => if p.1 = q then (p.1, p.2 + n) else p)) s
        = tableCount m s
  | [] => rfl
  | p :: rest => by
    by_cases hpq : p.1 = q
    · have hps : ¬p.1 = s := fun h => hne (h.symm.trans hpq)
      simp [tableCount, hpq, hps, Ne.symm hne, tableCount_map_bump_ne hne n rest]
    · by_cases hps : p.1 = s
      · simp [tableCount, hpq, hps, hne]
      · simp [tableCount, hpq, hps, tableCount_map_bump_ne hne n rest]

theorem tableCount_map_bump_eq {q : String} (n : Int) :
    ∀ m : List (String × Int),
      m.any (fun p => p.1 = q) →
      tableCount (m.map (fun p => if p.1 = q then (p.1, p.2 + n) else p)) q
        = tableCount m q + n := by
  intro m
  induction m with
  | nil => intro h; simp at h
  | cons p rest ih =>
    intro hany
    by_cases hpq : p.1 = q
    · simp [tableCount, hpq]
    · have : rest.any (fun p => p.1 = q) := by
        simpa [List.any_cons, hpq] using hany
      simp [tableCount, hpq, ih this]

theorem tableCount_append_new {q : String} (n : Int) :
    ∀ m : List (String × Int),
      ¬m.any (fun p => p.1 = q) →
      ∀ s, tableCount (m ++ [(q, n)]) s
        = tableCount m s + (if q = s then n else 0) := by
  intro m
  induction m with
  | nil =>
    intro _ s
    by_cases h : q = s <;> simp [tableCount, h]
  | cons p rest ih =>
    intro hany s
    have hpq : ¬p.1 = q := by
      intro h; exact hany (by simp [List.any_cons, h])
    have hrest : ¬rest.any (fun p => p.1 = q) := by
      intro h; exact hany (by simp [List.any_cons, h])
    by_cases hps : p.1 = s
    · have : ¬q = s := fun h => hpq (hps.trans h.symm)
      simp [tableCount, hps, this]
    · simp [tableCount, hps, ih hrest s]

/-- The effect of one `entry(q).or_insert(0) += n` on the count read for
any key `s`. -/
theorem hashAdd_tableCount (m : List (String × Int)) (q : String) (n : Int) (s : String) :
    tableCount (hashAdd m q n) s = tableCount m s + (if q = s then n else 0) := by
  unfold hashAdd
  by_cases hany : m.any (fun p => p.1 = q)
  · rw [if_pos hany]
    by_cases hqs : q = s
    · subst hqs
      simp [tableCount_map_bump_eq n m hany]
    · have hsq : s ≠ q := fun h => hqs h.symm
      simp [tableCount_map_bump_ne hsq n m, hqs]
  · rw [if_neg hany]
    exact tableCount_append_new n m hany s

theorem foldl_hashAdd_one_count (qs : List String) :
    ∀ (m : List (String × Int)) (s : String),
      tableCount (qs.foldl (fun m q => hashAdd m q 1) m) s
        = tableCount m s + (qs.count s : Int) := by
  induction qs with
  | nil => intro m s; simp
  | cons q rest ih =>
    intro m s
    simp only [List.foldl_cons, ih, hashAdd_tableCount, List.count_cons]
    by_cases h : q = s
    · simp only [h, if_pos rfl, beq_self_eq_true, if_true]
      push_cast
      ring
    · have : ¬(q == s) = true := by simpa using h
      simp only [if_neg h, this, if_false]
      push_cast
      ring

theorem runAllTime_from (inputs : List (List String)) :
    ∀ (s : Summarizer) (shape : String),
      (∀ qs ∈ inputs, qs.count shape = 1) →
      tableCount (inputs.foldl Summarizer.update s).counts shape
        = tableCount s.counts shape + (inputs.length : Int) := by
  induction inputs with
  | nil => intro s shape _; simp
  | cons qs rest ih =>
    intro s shape h
    have h1 : qs.count shape = 1 := h qs (by simp)
    have hrest : ∀ q ∈ rest, q.count shape = 1 := fun q hq => h q (by simp [hq])
    simp only [List.foldl_cons, ih _ shape hrest, Summarizer.update,
      foldl_hashAdd_one_count, h1, List.length_cons]
    push_cast
    ring

/-- Claim C3: for the all-time `Summarizer`, each occurrence of each
shape in an `update` call's input adds exactly 1 to that shape's table
entry; consequently feeding a shape once per call over M calls makes its
aggregate count M. -/
theorem allTime_update_adds_counts :
    (∀ (m : List (String × Int)) (qs : List String) (shape : String),
      tableCount ((Summarizer.update ⟨m⟩ qs).counts) shape
        = tableCount m shape + (qs.count shape : Int)) ∧
    (∀ (inputs : List (List String)) (shape : String),
      (∀ qs ∈ inputs, qs.count shape = 1) →
      tableCount (runAllTime inputs).counts shape = (inputs.length : Int)) := by
  constructor
  · intro m qs shape
    exact foldl_hashAdd_one_count qs m shape
  · intro inputs shape h
    have := runAllTime_from inputs (Summarizer.new 0) shape h
    simpa [Summarizer.new, tableCount] using this

/-- Witness for C3: three updates, each containing the shape `"a"` once,
yield aggregate count 3. -/
theorem allTime_update_adds_counts_witness :
    (∀ qs ∈ [["a"], ["a"], ["a"]], qs.count "a" = 1) ∧
    tableCount (runAllTime [["a"], ["a"], ["a"]]).counts "a"
      = (([["a"], ["a"], ["a"]] : List (List String)).length : Int) :=
  ⟨by decide, allTime_update_adds_counts.2 [["a"], ["a"], ["a"]] "a" (by decide)⟩

/-! ### The printing routine `show_summary` -/

theorem printLoopGo_eq_take (l : List (String × Int)) :
    ∀ cnt n, printLoopGo cnt n l = l.take (max 1 (n - cnt)) := by
  induction l with
  | nil => intro cnt n; simp [printLoopGo]
  | cons e rest ih =>
    intro cnt n
    by_cases h : cnt + 1 ≥ n
    · have h1 : max 1 (n - cnt) = 1 := by omega
      simp [printLoopGo, h, h1]
    · have h2 : max 1 (n - cnt) = n - cnt := by omega
      have h3 : n - cnt = (n - (cnt + 1)) + 1 := by omega
      have h4 : max 1 (n - (cnt + 1)) = n - (cnt + 1) := by omega
      rw [h2, h3, List.take_succ_cons]
      simp only [printLoopGo]
      rw [if_neg h, ih (cnt + 1) n, h4]

theorem show_summary_eq_take (l : List (String × Int)) (n : Nat) :
    show_summary l n = (l.insertionSort countGe).take (max 1 n) := by
  unfold show_summary
  rw [printLoopGo_eq_take]
  simp

/-- Claim C7 counterexample: with `topN = 0` and a non-empty table,
`show_summary` emits one entry, which is more than `topN` entries. -/
theorem show_summary_topzero_cex :
    (show_summary [("a", 1)] 0).length = 1 ∧
    ¬(show_summary [("a", 1)] 0).length ≤ 0 := by
  decide

/-- Claim C7 (amended): for every table order and every `topN ≥ 1`,
`show_summary` emits at most `topN` entries, and for every `topN` the
emitted entries are sorted by aggregate count descending (for
`topN = 0` a non-empty table still yields one entry, see the
counterexample). -/
theorem show_summary_truncation_sorted (l : List (String × Int)) (n : Nat) :
    (1 ≤ n → (show_summary l n).length ≤ n) ∧
    List.Sorted countGe (show_summary l n) := by
  constructor
  · intro hn
    rw [show_summary_eq_take]
    have : max 1 n = n := by omega
    rw [this]
    simp [List.length_take]
  · rw [show_summary_eq_take]
    exact List.Pairwise.sublist (List.take_sublist _ _)
      (List.sorted_insertionSort countGe l)

/-- Witness for C7 (amended), at a concrete table and `topN = 1`. -/
theorem show_summary_truncation_sorted_witness :
    (show_summary [("a", 1), ("b", 2)] 1).length ≤ 1 ∧
    List.Sorted countGe (show_summary [("a", 1), ("b", 2)] 1) :=
  ⟨(show_summary_truncation_sorted [("a", 1), ("b", 2)] 1).1 (by decide),
    (show_summary_truncation_sorted [("a", 1), ("b", 2)] 1).2⟩

/-- Claim C8 counterexample: two iteration orders of the same aggregate
table (a permutation pair) make `show_summary` emit different entry
sequences, because the sort compares counts only and the stable sort
keeps the (run-dependent) hash-map iteration order among ties. -/
theorem show_summary_tie_cex :
    [("a", (1 : Int)), ("b", 1)].Perm [("b", (1 : Int)), ("a", 1)] ∧
    show_summary [("a", 1), ("b", 1)] 2 ≠ show_summary [("b", 1), ("a", 1)] 2 := by
  decide

/-- Claim C8 (amended): the sequence of printed counts is deterministic
across iteration orders of the same aggregate state, but the entries
themselves are not: equal-count entries follow the hash map's iteration
order (see the counterexample). -/
theorem show_summary_count_sequence_deterministic
    (l₁ l₂ : List (String × Int)) (n : Nat) (h : l₁.Perm l₂) :
    (show_summary l₁ n).map Prod.snd = (show_summary l₂ n).map Prod.snd := by
  have hp : List.Perm ((List.insertionSort countGe l₁).map Prod.snd)
      ((List.insertionSort countGe l₂).map Prod.snd) :=
    (((List.perm_insertionSort countGe l₁).trans h).trans
      (List.perm_insertionSort countGe l₂).symm).map Prod.snd
  have hs₁ : List.Sorted intGe ((List.insertionSort countGe l₁).map Prod.snd) :=
    List.Pairwise.map Prod.snd (fun _ _ hab => hab)
      (List.sorted_insertionSort countGe l₁)
  have hs₂ : List.Sorted intGe ((List.insertionSort countGe l₂).map Prod.snd) :=
    List.Pairwise.map Prod.snd (fun _ _ hab => hab)
      (List.sorted_insertionSort countGe l₂)
  have heq := List.eq_of_perm_of_sorted hp hs₁ hs₂
  rw [show_summary_eq_take, show_summary_eq_take, List.map_take, List.map_take, heq]

/-- Witness for C8 (amended): the concrete permutation pair of the
counterexample indeed prints the same count column. -/
theorem show_summary_count_sequence_deterministic_witness :
    (show_summary [("a", (1 : Int)), ("b", 1)] 2).map Prod.snd
      = (show_summary [("b", (1 : Int)), ("a", 1)] 2).map Prod.snd :=
  show_summary_count_sequence_deterministic _ _ 2 (by decide)

/-- Claim C10: with `topN = 0` and a non-empty table, `show_summary`
prints exactly one entry: the truncation counter is compared to `topN`
only after an entry has been printed. -/
theorem show_summary_topzero_prints_one (l : List (String × Int)) (h : l ≠ []) :
    (show_summary l 0).length = 1 := by
  rw [show_summary_eq_take]
  have hlen : (List.insertionSort countGe l).length = l.length :=
    (List.perm_insertionSort countGe l).length_eq
  have hpos : 0 < l.length := List.length_pos.2 h
  simp [List.length_take, hlen]
  omega

/-- Witness for C10, at a concrete singleton table. -/
theorem show_summary_topzero_prints_one_witness :
    (show_summary [("a", (1 : Int))] 0).length = 1 :=
  show_summary_topzero_prints_one [("a", 1)] (by decide)

/-! ### The grouping loop of `RecentSummarizer::update` -/

theorem append_singleton_isEmpty (acc : List (String × Int)) (p : String × Int) :
    (acc ++ [p]).isEmpty = false := by
  cases acc <;> rfl

theorem bumpLast_append (acc : List (String × Int)) (p : String × Int) :
    bumpLast (acc ++ [p]) = acc ++ [(p.1, p.2 + 1)] := by
  induction acc with
  | nil => rfl
  | cons a rest ih =>
    cases rest with
    | nil => rfl
    | cons b rest2 =>
      show a :: bumpLast ((b :: rest2) ++ [p]) = a :: ((b :: rest2) ++ [(p.1, p.2 + 1)])
      rw [ih]

theorem buildQCGo_cons_ne {q last : String} (h : ¬q = last)
    (acc : List (String × Int)) (rest : List String) :
    buildQCGo last acc (q :: rest) = buildQCGo q (acc ++ [(q, 1)]) rest := by
  simp [buildQCGo, h, append_singleton_isEmpty, bumpLast_append]

theorem buildQCGo_run :
    ∀ (run : List String) (q : String) (rest : List String)
      (acc : List (String × Int)) (v : Int),
      (∀ x ∈ run, x = q) →
      buildQCGo q (acc ++ [(q, v)]) (run ++ rest)
        = buildQCGo q (acc ++ [(q, v + run.length)]) rest := by
  intro run
  induction run with
  | nil => intro q rest acc v _; simp
  | cons x run' ih =>
    intro q rest acc v hall
    have hx : x = q := hall x (by simp)
    subst hx
    have hxs : ∀ y ∈ run', y = x := fun y hy => hall y (by simp [hy])
    have hstep : buildQCGo x (acc ++ [(x, v)]) ((x :: run') ++ rest)
        = buildQCGo x (bumpLast (acc ++ [(x, v)])) (run' ++ rest) := by
      simp [buildQCGo, append_singleton_isEmpty]
    rw [hstep, bumpLast_append]
    rw [ih x rest acc (v + 1) hxs]
    have hv : v + 1 + (run'.length : Int) = v + ((x :: run').length : Int) := by
      push_cast [List.length_cons]
      ring
    rw [hv]

theorem buildQCGo_groupCounts :
    ∀ (n : Nat) (l : List String), l.length ≤ n →
      ∀ (last : String) (acc : List (String × Int)),
        (∀ q₀, l.head? = some q₀ → q₀ ≠ last) →
        buildQCGo last acc l = some (acc ++ groupCounts l) := by
  intro n
  induction n with
  | zero =>
    intro l hl last acc _
    have hnil : l = [] := List.length_eq_zero.1 (Nat.le_zero.1 hl)
    subst hnil
    simp [buildQCGo, groupCounts]
  | succ m ih =>
    intro l hl last acc hhead
    cases l with
    | nil => simp [buildQCGo, groupCounts]
    | cons q rest =>
      have hq : ¬q = last := hhead q rfl
      have hgc : groupCounts (q :: rest)
          = (q, 1 + ((rest.takeWhile (fun x => x = q)).length : Int)) ::
            groupCounts (rest.dropWhile (fun x => x = q)) := by
        simp [groupCounts]
      rw [buildQCGo_cons_ne hq acc rest]
      have hsplit : rest = rest.takeWhile (fun x => x = q)
          ++ rest.dropWhile (fun x => x = q) :=
        (List.takeWhile_append_dropWhile _ _).symm
      have hallrun : ∀ x ∈ rest.takeWhile (fun x => x = q), x = q := by
        intro x hx
        have hx' := List.mem_takeWhile_imp hx
        simpa using hx'
      have hheadr2 : ∀ q₀,
          (rest.dropWhile (fun x => x = q)).head? = some q₀ → q₀ ≠ q := by
        intro q₀ hq₀
        have hh := List.head?_dropWhile_not (fun x => decide (x = q)) rest
        rw [hq₀] at hh
        exact of_decide_eq_false hh
      have hr2len : (rest.dropWhile (fun x => x = q)).length ≤ m := by
        have h1 : (rest.dropWhile (fun x => x = q)).length ≤ rest.length :=
          (List.dropWhile_sublist _).length_le
      -- `hl : (q :: rest).length ≤ m + 1`
        simp only [List.length_cons] at hl
        omega
      conv_lhs => rw [hsplit]
      rw [buildQCGo_run _ q _ acc 1 hallrun,
        ih _ hr2len q _ hheadr2, hgc]
      simp

theorem buildQC_eq_groupCounts {l : List String}
    (h : ∀ q₀, l.head? = some q₀ → q₀ ≠ "") :
    buildQC l = some (groupCounts l) := by
  have := buildQCGo_groupCounts l.length l le_rfl "" [] h
  simpa [buildQC] using this

theorem buildQC_some {l : List String} {e : List (String × Int)}
    (h : buildQC l = some e) : e = groupCounts l := by
  cases l with
  | nil =>
    simp [buildQC, buildQCGo] at h
    simp [groupCounts, ← h]
  | cons q rest =>
    by_cases hq : q = ""
    · subst hq
      simp [buildQC, buildQCGo] at h
    · have := buildQC_eq_groupCounts
        (l := q :: rest) (fun q₀ hq₀ => by
          simp only [List.head?_cons, Option.some_inj] at hq₀
          exact hq₀ ▸ hq)
      rw [this] at h
      exact (Option.some_inj.1 h).symm

/-! ### `groupCounts` on sorted lists -/

theorem not_mem_dropWhile_self {q : String} {rest : List String}
    (hs : rest.Sorted (· ≤ ·)) (hall : ∀ x ∈ rest, q ≤ x) :
    q ∉ rest.dropWhile (fun x => x = q) := by
  intro hmem
  cases hr2 : rest.dropWhile (fun x => x = q) with
  | nil => rw [hr2] at hmem; simp at hmem
  | cons h t =>
    have hhne : ¬h = q := by
      have hh := List.head?_dropWhile_not (fun x => decide (x = q)) rest
      rw [hr2] at hh
      simpa using hh
    have hsub : (rest.dropWhile (fun x => x = q)).Sublist rest :=
      List.dropWhile_sublist _
    have hs2 : (h :: t).Sorted (· ≤ ·) := by
      rw [← hr2]
      exact List.Pairwise.sublist hsub hs
    rw [hr2] at hmem hsub
    rcases List.mem_cons.1 hmem with rfl | hmem'
    · exact hhne rfl
    · have hle : h ≤ q := (List.sorted_cons.1 hs2).1 q hmem'
      have hge : q ≤ h := hall h (hsub.subset (by simp))
      exact hhne (le_antisymm hle hge)

theorem entrySum_groupCounts :
    ∀ (n : Nat) (l : List String), l.length ≤ n → l.Sorted (· ≤ ·) →
      ∀ s, entrySum (groupCounts l) s = (l.count s : Int) := by
  intro n
  induction n with
  | zero =>
    intro l hl _ s
    have hnil : l = [] := List.length_eq_zero.1 (Nat.le_zero.1 hl)
    subst hnil
    simp [groupCounts, entrySum]
  | succ m ih =>
    intro l hl hs s
    cases l with
    | nil => simp [groupCounts, entrySum]
    | cons q rest =>
      have hgc : groupCounts (q :: rest)
          = (q, 1 + ((rest.takeWhile (fun x => x = q)).length : Int)) ::
            groupCounts (rest.dropWhile (fun x => x = q)) := by
        simp [groupCounts]
      have hsorted_rest : rest.Sorted (· ≤ ·) := (List.sorted_cons.1 hs).2
      have hall : ∀ x ∈ rest, q ≤ x := (List.sorted_cons.1 hs).1
      have hr2sorted : (rest.dropWhile (fun x => x = q)).Sorted (· ≤ ·) :=
        List.Pairwise.sublist (List.dropWhile_sublist _) hsorted_rest
      have hr2len : (rest.dropWhile (fun x => x = q)).length ≤ m := by
        have h1 : (rest.dropWhile (fun x => x = q)).length ≤ rest.length :=
          (List.dropWhile_sublist _).length_le
        simp only [List.length_cons] at hl
        omega
      have ihr2 := ih _ hr2len hr2sorted s
      have hcnt : (q :: rest).count s
          = (rest.takeWhile (fun x => x = q)).count s
            + (rest.dropWhile (fun x => x = q)).count s
            + (if q = s then 1 else 0) := by
        rw [List.count_cons]
        conv_lhs => rw [show rest = rest.takeWhile (fun x => x = q)
          ++ rest.dropWhile (fun x => x = q) from
            (List.takeWhile_append_dropWhile _ _).symm]
        rw [List.count_append]
        by_cases hqs : q = s
        · simp [hqs]
        · have : ¬(q == s) = true := by simpa using hqs
          simp [hqs, this]
      rw [hgc]
      simp only [entrySum]
      rw [ihr2, hcnt]
      by_cases hqs : q = s
      · subst hqs
        have hrun : (rest.takeWhile (fun x => x = q)).count q
            = (rest.takeWhile (fun x => x = q)).length := by
          rw [List.count_eq_length]
          intro b hb
          have hb' : b = q := by simpa using List.mem_takeWhile_imp hb
          exact hb'.symm
        have hr2cnt : (rest.dropWhile (fun x => x = q)).count q = 0 :=
          List.count_eq_zero.2 (not_mem_dropWhile_self hsorted_rest hall)
        rw [hrun, hr2cnt]
        simp only [eq_self_iff_true, if_true]
        push_cast
        ring
      · have hrun : (rest.takeWhile (fun x => x = q)).count s = 0 := by
          refine List.count_eq_zero.2 fun hmem => ?_
          have hb' : s = q := by simpa using List.mem_takeWhile_imp hmem
          exact hqs hb'.symm
        rw [hrun]
        simp [hqs]

theorem groupCounts_key_mem :
    ∀ (n : Nat) (l : List String), l.length ≤ n →
      ∀ p ∈ groupCounts l, p.1 ∈ l := by
  intro n
  induction n with
  | zero =>
    intro l hl p hp
    have hnil : l = [] := List.length_eq_zero.1 (Nat.le_zero.1 hl)
    subst hnil
    simp [groupCounts] at hp
  | succ m ih =>
    intro l hl p hp
    cases l with
    | nil => simp [groupCounts] at hp
    | cons q rest =>
      have hgc : groupCounts (q :: rest)
          = (q, 1 + ((rest.takeWhile (fun x => x = q)).length : Int)) ::
            groupCounts (rest.dropWhile (fun x => x = q)) := by
        simp [groupCounts]
      rw [hgc] at hp
      rcases List.mem_cons.1 hp with rfl | hp'
      · simp
      · have hr2len : (rest.dropWhile (fun x => x = q)).length ≤ m := by
          have h1 : (rest.dropWhile (fun x => x = q)).length ≤ rest.length :=
            (List.dropWhile_sublist _).length_le
          simp only [List.length_cons] at hl
          omega
        have hmem := ih _ hr2len p hp'
        have : p.1 ∈ rest := (List.dropWhile_sublist _).subset hmem
        simp [this]

theorem groupCounts_keys_nodup :
    ∀ (n : Nat) (l : List String), l.length ≤ n → l.Sorted (· ≤ ·) →
      ((groupCounts l).map Prod.fst).Nodup := by
  intro n
  induction n with
  | zero =>
    intro l hl _
    have hnil : l = [] := List.length_eq_zero.1 (Nat.le_zero.1 hl)
    subst hnil
    simp [groupCounts]
  | succ m ih =>
    intro l hl hs
    cases l with
    | nil => simp [groupCounts]
    | cons q rest =>
      have hgc : groupCounts (q :: rest)
          = (q, 1 + ((rest.takeWhile (fun x => x = q)).length : Int)) ::
            groupCounts (rest.dropWhile (fun x => x = q)) := by
        simp [groupCounts]
      have hsorted_rest : rest.Sorted (· ≤ ·) := (List.sorted_cons.1 hs).2
      have hall : ∀ x ∈ rest, q ≤ x := (List.sorted_cons.1 hs).1
      have hr2sorted : (rest.dropWhile (fun x => x = q)).Sorted (· ≤ ·) :=
        List.Pairwise.sublist (List.dropWhile_sublist _) hsorted_rest
      have hr2len : (rest.dropWhile (fun x => x = q)).length ≤ m := by
        have h1 : (rest.dropWhile (fun x => x = q)).length ≤ rest.length :=
          (List.dropWhile_sublist _).length_le
        simp only [List.length_cons] at hl
        omega
      rw [hgc]
      simp only [List.map_cons]
      refine List.nodup_cons.2 ⟨?_, ih _ hr2len hr2sorted⟩
      intro hqmem
      rcases List.mem_map.1 hqmem with ⟨p, hp, hpq⟩
      have hkey := groupCounts_key_mem _ _ le_rfl p hp
      rw [hpq] at hkey
      exact not_mem_dropWhile_self hsorted_rest hall hkey

theorem entrySum_of_key_not_mem {e : List (String × Int)} {s : String}
    (h : s ∉ e.map Prod.fst) : entrySum e s = 0 := by
  induction e with
  | nil => rfl
  | cons p rest ih =>
    have hps : ¬p.1 = s := fun heq => h (by simp [← heq])
    have hrest : s ∉ rest.map Prod.fst := fun hm => h (by simp [hm])
    simp [entrySum, hps, ih hrest]

theorem tableCount_eq_entrySum :
    ∀ (e : List (String × Int)), (e.map Prod.fst).Nodup →
      ∀ s, tableCount e s = entrySum e s := by
  intro e
  induction e with
  | nil => intro _ s; rfl
  | cons p rest ih =>
    intro hnd s
    rw [List.map_cons] at hnd
    have hnd' := List.nodup_cons.1 hnd
    by_cases hps : p.1 = s
    · have hs' : s ∉ rest.map Prod.fst := hps ▸ hnd'.1
      simp [tableCount, entrySum, hps, entrySum_of_key_not_mem hs']
    · simp [tableCount, entrySum, hps, ih hnd'.2 s]

/-! ### `RecentSummarizer::update` and runs of updates -/

theorem sortedQs_facts (qs : List String) :
    (qs.insertionSort (· ≤ ·)).Sorted (· ≤ ·) ∧
    ∀ s, (qs.insertionSort (· ≤ ·)).count s = qs.count s :=
  ⟨List.sorted_insertionSort _ qs,
    fun s => (List.perm_insertionSort (· ≤ ·) qs).count_eq s⟩

/-- What a successful `RecentSummarizer::update` produces: the possibly
evicted window plus one appended entry whose keys are distinct shapes
and whose entry for each shape counts its occurrences in the input. -/
theorem update_eq_some {s : RecentSummarizer} {qs : List String}
    {s' : RecentSummarizer} (h : s.update qs = some s') :
    s'.limit = s.limit ∧
    ∃ e, s'.counts
        = (if s.limit ≤ s.counts.length then s.counts.drop 1 else s.counts) ++ [e] ∧
      (e.map Prod.fst).Nodup ∧
      (∀ shape, entrySum e shape = (qs.count shape : Int)) ∧
      (∀ shape, tableCount e shape = (qs.count shape : Int)) ∧
      (s.limit ≤ s.counts.length → s.counts ≠ []) := by
  unfold RecentSummarizer.update at h
  have hqc : ∀ qc, buildQC (qs.insertionSort (· ≤ ·)) = some qc →
      (qc.map Prod.fst).Nodup ∧
      (∀ shape, entrySum qc shape = (qs.count shape : Int)) ∧
      (∀ shape, tableCount qc shape = (qs.count shape : Int)) := by
    intro qc hb
    have hgc : qc = groupCounts (qs.insertionSort (· ≤ ·)) := buildQC_some hb
    obtain ⟨hsorted, hcount⟩ := sortedQs_facts qs
    have hnd : (qc.map Prod.fst).Nodup := by
      rw [hgc]; exact groupCounts_keys_nodup _ _ le_rfl hsorted
    have hes : ∀ shape, entrySum qc shape = (qs.count shape : Int) := by
      intro shape
      rw [hgc, entrySum_groupCounts _ _ le_rfl hsorted shape, hcount]
    exact ⟨hnd, hes, fun shape => by
      rw [tableCount_eq_entrySum qc hnd shape]; exact hes shape⟩
  by_cases hlim : s.limit ≤ s.counts.length
  · rw [if_pos hlim] at h
    cases hc : s.counts with
    | nil => rw [hc] at h; simp [vecRemoveFirst] at h
    | cons c t =>
      rw [hc] at h
      simp only [vecRemoveFirst] at h
      cases hb : buildQC (qs.insertionSort (· ≤ ·)) with
      | none => rw [hb] at h; simp at h
      | some qc =>
        rw [hb] at h
        simp only [Option.some_inj] at h
        obtain ⟨hnd, hes, hts⟩ := hqc qc hb
        refine ⟨by rw [← h], qc, ?_, hnd, hes, hts, fun _ => by simp [hc]⟩
        rw [← h, if_pos (show s.limit ≤ (c :: t).length from hc ▸ hlim)]
        simp
  · rw [if_neg hlim] at h
    simp only [] at h
    cases hb : buildQC (qs.insertionSort (· ≤ ·)) with
    | none => rw [hb] at h; simp at h
    | some qc =>
      rw [hb] at h
      simp only [Option.some_inj] at h
      obtain ⟨hnd, hes, hts⟩ := hqc qc hb
      exact ⟨by rw [← h], qc, by rw [← h, if_neg hlim], hnd, hes, hts,
        fun hle => absurd hle hlim⟩

/-- A successful update from a legal state keeps the window within the
limit. -/
theorem update_length_invariant {s : RecentSummarizer} {qs : List String}
    {s' : RecentSummarizer} (h : s.update qs = some s')
    (hinv : s.counts.length ≤ s.limit) :
    s'.counts.length ≤ s'.limit ∧ s'.limit = s.limit := by
  obtain ⟨hlimeq, e, hce, -, -, -, hne⟩ := update_eq_some h
  refine ⟨?_, hlimeq⟩
  rw [hlimeq, hce]
  by_cases hl : s.limit ≤ s.counts.length
  · have hne' : s.counts ≠ [] := hne hl
    have hpos : 0 < s.counts.length := List.length_pos.2 hne'
    rw [if_pos hl]
    simp only [List.length_append, List.length_drop, List.length_cons,
      List.length_nil]
    omega
  · rw [if_neg hl]
    simp only [List.length_append, List.length_cons, List.length_nil]
    omega

theorem runRecent_length_le :
    ∀ (inputs : List (List String)) (s s' : RecentSummarizer),
      s.counts.length ≤ s.limit → runRecent s inputs = some s' →
      s'.counts.length ≤ s.limit ∧ s'.limit = s.limit := by
  intro inputs
  induction inputs with
  | nil =>
    intro s s' hinv hrun
    simp only [runRecent, Option.some_inj] at hrun
    subst hrun
    exact ⟨hinv, rfl⟩
  | cons qs rest ih =>
    intro s s' hinv hrun
    simp only [runRecent] at hrun
    cases hu : s.update qs with
    | none => rw [hu] at hrun; simp at hrun
    | some s1 =>
      rw [hu] at hrun
      obtain ⟨h1, h2⟩ := update_length_invariant hu hinv
      obtain ⟨h3, h4⟩ := ih s1 s' h1 hrun
      rw [h2] at h3 h4
      exact ⟨h3, h4⟩

/-- The per-tick-entry correspondence carried along a run of updates. -/
def TickMatches (qs : List String) (e : List (String × Int)) : Prop :=
  ∀ shape, entrySum e shape = (qs.count shape : Int)

/-- After a successful run of updates the window is a suffix of the
stream of per-tick entries: the last `limit` of them (all of them while
the window is still filling). -/
theorem runRecent_window :
    ∀ (inputs : List (List String)) (s s' : RecentSummarizer),
      1 ≤ s.limit → s.counts.length ≤ s.limit →
      runRecent s inputs = some s' →
      ∃ es : List (List (String × Int)),
        List.Forall₂ TickMatches inputs es ∧
        s'.counts = (s.counts ++ es).drop (s.counts.length + es.length - s.limit) := by
  intro inputs
  induction inputs with
  | nil =>
    intro s s' _ hinv hrun
    simp only [runRecent, Option.some_inj] at hrun
    subst hrun
    refine ⟨[], List.Forall₂.nil, ?_⟩
    have h0 : s.counts.length - s.limit = 0 := by omega
    simp [h0]
  | cons qs rest ih =>
    intro s s' hK hinv hrun
    simp only [runRecent] at hrun
    cases hu : s.update qs with
    | none => rw [hu] at hrun; simp at hrun
    | some s1 =>
      rw [hu] at hrun
      obtain ⟨hlimeq, e, hce, -, hes, -, hne⟩ := update_eq_some hu
      obtain ⟨h1, h2⟩ := update_length_invariant hu hinv
      obtain ⟨es', hfa, hcounts⟩ := ih s1 s' (by omega) h1 hrun
      refine ⟨e :: es', List.Forall₂.cons hes hfa, ?_⟩
      rw [hcounts, hce, hlimeq]
      by_cases hl : s.limit ≤ s.counts.length
      · have hne' : s.counts ≠ [] := hne hl
        have hlen : s.counts.length = s.limit := le_antisymm hinv hl
        cases hcs : s.counts with
        | nil => exact absurd hcs hne'
        | cons c t =>
          rw [if_pos (show s.limit ≤ (c :: t).length from hcs ▸ hl)]
          have hlt : (c :: t).length = s.limit := hcs ▸ hlen
          simp only [List.length_cons] at hlt
          have hidx1 : (List.drop 1 (c :: t) ++ [e]).length + es'.length - s.limit
              = es'.length := by
            simp only [List.length_append, List.length_drop, List.length_cons,
              List.length_nil]
            omega
          have hidx2 : (c :: t).length + (e :: es').length - s.limit
              = es'.length + 1 := by
            simp only [List.length_cons]
            omega
          rw [hidx1, hidx2]
          simp [List.drop_succ_cons]
      · rw [if_neg hl]
        have hidx : (s.counts ++ [e]).length + es'.length - s.limit
            = s.counts.length + (e :: es').length - s.limit := by
          simp only [List.length_append, List.length_cons, List.length_nil]
          omega
        rw [hidx]
        have hshape : (s.counts ++ [e]) ++ es' = s.counts ++ e :: es' := by simp
        rw [hshape]

/-- Unfolding the inner loop of `RecentSummarizer::show`: adding one
per-tick entry adds its `entrySum` to every key. -/
theorem foldl_hashAdd_entry (qcs : List (String × Int)) :
    ∀ (m : List (String × Int)) (s : String),
      tableCount (qcs.foldl (fun m qc => hashAdd m qc.1 qc.2) m) s
        = tableCount m s + entrySum qcs s := by
  induction qcs with
  | nil => intro m s; simp [entrySum]
  | cons qc rest ih =>
    intro m s
    simp only [List.foldl_cons, ih, hashAdd_tableCount, entrySum]
    ring

theorem windowAggregate_tableCount (w : List (List (String × Int))) (s : String) :
    tableCount (windowAggregate w) s = (w.map (fun e => entrySum e s)).sum := by
  suffices h : ∀ m, tableCount
      (w.foldl (fun m qcs => qcs.foldl (fun m qc => hashAdd m qc.1 qc.2) m) m) s
      = tableCount m s + (w.map (fun e => entrySum e s)).sum by
    simpa [windowAggregate, tableCount] using h []
  induction w with
  | nil => intro m; simp
  | cons qcs rest ih =>
    intro m
    simp only [List.foldl_cons, ih, foldl_hashAdd_entry, List.map_cons,
      List.sum_cons]
    ring

theorem forall₂_drop {α β : Type} {R : α → β → Prop} :
    ∀ (n : Nat) {l₁ : List α} {l₂ : List β}, List.Forall₂ R l₁ l₂ →
      List.Forall₂ R (l₁.drop n) (l₂.drop n)
  | 0, _, _, h => h
  | _ + 1, _, _, List.Forall₂.nil => List.Forall₂.nil
  | n + 1, _, _, List.Forall₂.cons _ h => forall₂_drop n h

theorem forall₂_entrySum_map (shape : String) :
    ∀ {ins : List (List String)} {es : List (List (String × Int))},
      List.Forall₂ TickMatches ins es →
      es.map (fun e => entrySum e shape) = ins.map (fun qs => (qs.count shape : Int))
  | _, _, List.Forall₂.nil => rfl
  | _, _, List.Forall₂.cons h₁ h₂ => by
    simp only [List.map_cons, h₁ shape, forall₂_entrySum_map shape h₂]

theorem update_new_zero (qs : List String) :
    (RecentSummarizer.new 0).update qs = none := rfl

/-- Claim C4 counterexample: an update whose input is the empty-string
shape does not append a per-tick entry; it panics (`Vec::last_mut()` on
the empty accumulator, because `last_query` is initialised to `""`),
modelled as `none`.  The empty shape is reachable: `normalize_query`
maps the non-empty statement `\'` to the empty string. -/
theorem recent_update_empty_shape_cex :
    RecentSummarizer.update (RecentSummarizer.new 5) [""] = none := rfl

/-- Claim C4 (amended): for a window with `limit ≥ 1`, every update call
whose input contains no empty-string shape coalesces the input into one
per-tick entry — one entry per distinct shape, carrying its tick-local
occurrence count — and appends exactly that entry to the window.  An
input containing the empty string instead panics (see the
counterexample). -/
theorem recent_update_coalesces (s : RecentSummarizer) (qs : List String)
    (hK : 1 ≤ s.limit) (hq : "" ∉ qs) :
    ∃ e, s.update qs
        = some ⟨(if s.limit ≤ s.counts.length then s.counts.drop 1 else s.counts)
            ++ [e], s.limit⟩ ∧
      (e.map Prod.fst).Nodup ∧
      ∀ shape, tableCount e shape = (qs.count shape : Int) := by
  have hhead : ∀ q₀, (qs.insertionSort (· ≤ ·)).head? = some q₀ → q₀ ≠ "" := by
    intro q₀ hq₀ hcontra
    subst hcontra
    have hmem : "" ∈ qs.insertionSort (· ≤ ·) :=
      List.mem_of_mem_head? (by rw [hq₀]; simp)
    exact hq ((List.perm_insertionSort (· ≤ ·) qs).mem_iff.1 hmem)
  have hbuild : buildQC (qs.insertionSort (· ≤ ·))
      = some (groupCounts (qs.insertionSort (· ≤ ·))) :=
    buildQC_eq_groupCounts hhead
  obtain ⟨hsorted, hcount⟩ := sortedQs_facts qs
  have hnd : ((groupCounts (qs.insertionSort (· ≤ ·))).map Prod.fst).Nodup :=
    groupCounts_keys_nodup _ _ le_rfl hsorted
  have htc : ∀ shape, tableCount (groupCounts (qs.insertionSort (· ≤ ·))) shape
      = (qs.count shape : Int) := by
    intro shape
    rw [tableCount_eq_entrySum _ hnd shape,
      entrySum_groupCounts _ _ le_rfl hsorted shape, hcount]
  refine ⟨groupCounts (qs.insertionSort (· ≤ ·)), ?_, hnd, htc⟩
  unfold RecentSummarizer.update
  by_cases hlim : s.limit ≤ s.counts.length
  · cases hcs : s.counts with
    | nil =>
      exfalso
      rw [hcs] at hlim
      simp only [List.length_nil, Nat.le_zero] at hlim
      omega
    | cons c t =>
      rw [if_pos (show s.limit ≤ (c :: t).length from hcs ▸ hlim),
        if_pos (show s.limit ≤ (c :: t).length from hcs ▸ hlim), hbuild]
      rfl
  · rw [if_neg hlim, if_neg hlim, hbuild]

/-- Witness for C4 (amended): a concrete update with a duplicate shape,
on a fresh window of limit 3. -/
theorem recent_update_coalesces_witness :
    (1 ≤ (RecentSummarizer.new 3).limit ∧ "" ∉ ["b", "a", "b"]) ∧
    ∃ e, (RecentSummarizer.new 3).update ["b", "a", "b"]
        = some ⟨(if (RecentSummarizer.new 3).limit
              ≤ (RecentSummarizer.new 3).counts.length
            then (RecentSummarizer.new 3).counts.drop 1
            else (RecentSummarizer.new 3).counts) ++ [e],
            (RecentSummarizer.new 3).limit⟩ ∧
      (e.map Prod.fst).Nodup ∧
      ∀ shape, tableCount e shape = ((["b", "a", "b"] : List String).count shape : Int) :=
  ⟨⟨by decide, by decide⟩,
    recent_update_coalesces (RecentSummarizer.new 3) ["b", "a", "b"]
      (by decide) (by decide)⟩

/-- Claim C5: starting from a fresh window with limit K, after every
successful sequence of updates at most K per-tick entries are retained,
and an update of a full window evicts the oldest entry before appending
the newest. -/
theorem recent_window_length_bounded :
    (∀ (K : Nat) (inputs : List (List String)) (s' : RecentSummarizer),
      runRecent (RecentSummarizer.new K) inputs = some s' →
      s'.counts.length ≤ K) ∧
    (∀ (s : RecentSummarizer) (qs : List String) (s' : RecentSummarizer),
      s.limit ≤ s.counts.length → s.update qs = some s' →
      ∃ e, s'.counts = s.counts.drop 1 ++ [e]) := by
  constructor
  · intro K inputs s' hrun
    exact (runRecent_length_le inputs (RecentSummarizer.new K) s'
      (by simp [RecentSummarizer.new]) hrun).1
  · intro s qs s' hlim hu
    obtain ⟨-, e, hce, -⟩ := update_eq_some hu
    exact ⟨e, by rw [hce, if_pos hlim]⟩

/-- Witness for C5: a window of limit 1 fed two updates retains one
entry. -/
theorem recent_window_length_bounded_witness :
    runRecent (RecentSummarizer.new 1) [["a"], ["b"]]
      = some ⟨[[("b", 1)]], 1⟩ ∧
    (⟨[[("b", 1)]], 1⟩ : RecentSummarizer).counts.length ≤ 1 :=
  ⟨by decide,
    recent_window_length_bounded.1 1 [["a"], ["b"]] ⟨[[("b", 1)]], 1⟩ (by decide)⟩

/-- Claim C6: with limit K, after K+1 successful updates the aggregate
computed by `show` is exactly the sum of the per-tick occurrence counts
of the last K calls — the first (evicted) call contributes nothing. -/
theorem recent_window_drops_oldest (K : Nat) (inputs : List (List String))
    (s' : RecentSummarizer) (hlen : inputs.length = K + 1)
    (hrun : runRecent (RecentSummarizer.new K) inputs = some s') (shape : String) :
    tableCount (windowAggregate s'.counts) shape
      = ((inputs.drop 1).map (fun qs => (qs.count shape : Int))).sum := by
  rcases Nat.eq_zero_or_pos K with rfl | hK
  · cases inputs with
    | nil => simp at hlen
    | cons qs rest => simp [runRecent, update_new_zero] at hrun
  · obtain ⟨es, hfa, hcounts⟩ := runRecent_window inputs (RecentSummarizer.new K) s'
      hK (by simp [RecentSummarizer.new]) hrun
    have heslen : es.length = K + 1 := by rw [← hfa.length_eq, hlen]
    rw [hcounts]
    simp only [RecentSummarizer.new, List.nil_append, List.length_nil, Nat.zero_add]
    have hidx : es.length - K = 1 := by omega
    rw [hidx, windowAggregate_tableCount]
    rw [forall₂_entrySum_map shape (forall₂_drop 1 hfa)]

/-- Witness for C6: limit 1, two updates; the aggregate contains nothing
from the first call's shape `"a"`. -/
theorem recent_window_drops_oldest_witness :
    (([["a"], ["b"]] : List (List String)).length = 1 + 1) ∧
    tableCount (windowAggregate (⟨[[("b", 1)]], 1⟩ : RecentSummarizer).counts) "a"
      = ((([["a"], ["b"]] : List (List String)).drop 1).map
          (fun qs => (qs.count "a" : Int))).sum :=
  ⟨rfl, recent_window_drops_oldest 1 [["a"], ["b"]] ⟨[[("b", 1)]], 1⟩ rfl
    (by decide) "a"⟩

/-- Claim C9 counterexample: a `RecentSummarizer` constructed with limit
0 does not behave like the all-time summarizer — its first `update`
already panics (`Vec::remove(0)` on the empty window), modelled as
`none`, rather than succeeding. -/
theorem recent_limit_zero_update_cex :
    RecentSummarizer.update (RecentSummarizer.new 0) ["SELECT N FROM t"] = none := rfl

/-- Claim C9 (amended): `RecentSummarizer` with limit 0 fails on every
non-empty update sequence; the program obtains the claimed all-time
behavior for the configuration `last = 0` by selecting the all-time
`Summarizer` instead (main.rs 302-308). -/
theorem recent_limit_zero_behavior :
    (∀ (qs : List String) (rest : List (List String)),
      runRecent (RecentSummarizer.new 0) (qs :: rest) = none) ∧
    selectSummarizer 0 = SummarizerChoice.allTime := by
  constructor
  · intro qs rest
    simp [runRecent, update_new_zero]
  · rfl

end Myprofiler
